import Mathlib

/-!
Verification of the CPU-scheduling simulator (four algorithms:
first-come-first-serve, preemptive shortest-remaining-time, a
priority-labelled non-preemptive shortest-job variant, and round-robin
with a fixed quantum).  The definitions below are a shallow embedding of
the Go source: `int64` values are modelled as `Int` (overflow is
irrelevant for every property treated here except the explicit
`MaxInt64` sentinel in the shortest-job scan, which is kept literally as
`2 ^ 63 - 1`), Go's `float64` aggregate metrics — which only ever hold
integer values divided by integer counts — are modelled as `Option ℚ`
with `none` standing for the non-finite results of a division by zero,
and the in-place `sort.Slice` mutation of the caller's slice is made
observable through the `procsAfter` field of the result.  Loops whose
trip count is not structural take an explicit fuel argument and return
`none` when the fuel is exhausted; a run of the Go loop that terminates
corresponds to some sufficient fuel.
-/

namespace Sched

/-- Process record, mirroring the Go struct `Process`
(`ProcessID`, `ArrivalTime`, `BurstDuration`, `Priority`, all `int64`). -/
structure Process where
  ProcessID : Int
  ArrivalTime : Int
  BurstDuration : Int
  Priority : Int
deriving DecidableEq, Inhabited

/-- Gantt entry, mirroring the Go struct `TimeSlice`. -/
structure TimeSlice where
  PID : Int
  Start : Int
  Stop : Int
deriving DecidableEq, Inhabited

/-- One row of the output schedule table.  The Go code stores the fields
as decimal strings via `fmt.Sprint`; the embedding keeps the integer
values themselves, which is what those strings denote. -/
structure ScheduleRow where
  id : Int
  priority : Int
  burst : Int
  arrival : Int
  wait : Int
  turnaround : Int
  completion : Int
deriving DecidableEq, Inhabited

/-- Division producing `none` exactly when the denominator is zero.
In the Go code the corresponding `float64` divisions yield `NaN` or
`±Inf` in that case; `none` models every non-finite outcome. -/
def safeDiv (a b : Int) : Option ℚ :=
  if b = 0 then none else some ((a : ℚ) / (b : ℚ))

/-- Everything an algorithm hands to the presentation layer, plus
`procsAfter`: the contents of the caller's process slice after the call
returns (the Go algorithms that sort do so in place on the caller's
slice, so this is observable). -/
structure ScheduleResult where
  rows : List ScheduleRow
  gantt : List TimeSlice
  aveWait : Option ℚ
  aveTurnaround : Option ℚ
  throughput : Option ℚ
  procsAfter : List Process
deriving DecidableEq

/-! ### First-come-first-serve (`FCFSSchedule`, Go lines 73-123) -/

/-- Loop state of `FCFSSchedule`: the running clock `serviceTime`, the
float accumulators (integer-valued, kept as `Int`), the `waitingTime`
variable that Go declares outside the loop (so it carries over between
iterations), and the rows/gantt built so far. -/
structure FCFSState where
  serviceTime : Int
  totalWait : Int
  totalTurnaround : Int
  lastCompletion : Int
  waitingTime : Int
  schedule : List ScheduleRow
  gantt : List TimeSlice
deriving DecidableEq

/-- One iteration of the `for i := range processes` loop of
`FCFSSchedule`.  Note: `waitingTime` is reassigned only when
`ArrivalTime > 0` (no clamping with `max 0`), exactly as in the source. -/
def fcfsStep (s : FCFSState) (p : Process) : FCFSState :=
  let waitingTime := if 0 < p.ArrivalTime then s.serviceTime - p.ArrivalTime else s.waitingTime
  let start := waitingTime + p.ArrivalTime
  let turnaround := p.BurstDuration + waitingTime
  let completion := p.BurstDuration + p.ArrivalTime + waitingTime
  let serviceTime := s.serviceTime + p.BurstDuration
  { serviceTime := serviceTime
    totalWait := s.totalWait + waitingTime
    totalTurnaround := s.totalTurnaround + turnaround
    lastCompletion := completion
    waitingTime := waitingTime
    schedule := s.schedule ++
      [⟨p.ProcessID, p.Priority, p.BurstDuration, p.ArrivalTime, waitingTime, turnaround, completion⟩]
    gantt := s.gantt ++ [⟨p.ProcessID, start, serviceTime⟩] }

/-- The whole `FCFSSchedule` loop. -/
def fcfsRun (s : FCFSState) : List Process → FCFSState
  | [] => s
  | p :: rest => fcfsRun (fcfsStep s p) rest

/-- `FCFSSchedule`: single pass in the given order; no sorting, so the
caller's slice is returned unchanged in `procsAfter`. -/
def FCFSSchedule (processes : List Process) : ScheduleResult :=
  let s := fcfsRun ⟨0, 0, 0, 0, 0, [], []⟩ processes
  { rows := s.schedule
    gantt := s.gantt
    aveWait := safeDiv s.totalWait processes.length
    aveTurnaround := safeDiv s.totalTurnaround processes.length
    throughput := safeDiv processes.length s.lastCompletion
    procsAfter := processes }

/-! ### Comparators used by `sort.Slice`

`SJFPrioritySchedule` sorts the caller's slice with the comparator
"arrival ascending, then burst ascending"; `RRSchedule` sorts it with
"arrival ascending".  Go's `sort.Slice` produces some permutation that
is sorted with respect to the (negation of the) strict comparator; the
embedding uses Mathlib's `insertionSort`, one such permutation, over the
corresponding non-strict total preorders. -/

/-- Non-strict total preorder induced by the `SJFPrioritySchedule`
comparator: `p` may precede `q` iff `¬ less q p` where
`less a b = a.ArrivalTime < b.ArrivalTime ∨ (equal arrivals ∧
a.BurstDuration < b.BurstDuration)`. -/
def prLE (p q : Process) : Prop :=
  p.ArrivalTime < q.ArrivalTime ∨
    (p.ArrivalTime = q.ArrivalTime ∧ p.BurstDuration ≤ q.BurstDuration)

instance : DecidableRel prLE := fun p q => by unfold prLE; infer_instance

instance : IsTotal Process prLE := ⟨by intro a b; unfold prLE; omega⟩

instance : IsTrans Process prLE := ⟨by intro a b c; unfold prLE; omega⟩

/-- Non-strict total preorder induced by the `RRSchedule` comparator
(arrival ascending). -/
def arrLE (p q : Process) : Prop := p.ArrivalTime ≤ q.ArrivalTime

instance : DecidableRel arrLE := fun p q => by unfold arrLE; infer_instance

instance : IsTotal Process arrLE := ⟨by intro a b; unfold arrLE; omega⟩

instance : IsTrans Process arrLE := ⟨by intro a b c; unfold arrLE; omega⟩

/-! ### Priority-labelled non-preemptive shortest-job variant
(`SJFPrioritySchedule`, Go lines 203-262) -/

/-- Loop state of `SJFPrioritySchedule` after the in-place sort. -/
structure SPState where
  currentTime : Int
  totalWait : Int
  totalTurnaround : Int
  lastCompletion : Int
  schedule : List ScheduleRow
  gantt : List TimeSlice
deriving DecidableEq

/-- One iteration of the `for idx, p := range processes` loop of
`SJFPrioritySchedule`: idle forward (zero wait) when the process has not
arrived yet, otherwise wait is the time since arrival. -/
def spStep (s : SPState) (p : Process) : SPState :=
  let waitingTime := if s.currentTime < p.ArrivalTime then 0 else s.currentTime - p.ArrivalTime
  let started := if s.currentTime < p.ArrivalTime then p.ArrivalTime else s.currentTime
  let turnaround := p.BurstDuration + waitingTime
  let t := started + p.BurstDuration
  { currentTime := t
    totalWait := s.totalWait + waitingTime
    totalTurnaround := s.totalTurnaround + turnaround
    lastCompletion := t
    schedule := s.schedule ++
      [⟨p.ProcessID, p.Priority, p.BurstDuration, p.ArrivalTime, waitingTime, turnaround, t⟩]
    gantt := s.gantt ++ [⟨p.ProcessID, t - p.BurstDuration, t⟩] }

/-- The whole `SJFPrioritySchedule` loop. -/
def spRun (s : SPState) : List Process → SPState
  | [] => s
  | p :: rest => spRun (spStep s p) rest

/-- `SJFPrioritySchedule`: sorts the caller's slice in place by
(arrival, burst) — the `priority` field is never consulted — then runs
one non-preemptive pass over the sorted order. -/
def SJFPrioritySchedule (processes : List Process) : ScheduleResult :=
  let sorted := List.insertionSort prLE processes
  let s := spRun ⟨0, 0, 0, 0, [], []⟩ sorted
  { rows := s.schedule
    gantt := s.gantt
    aveWait := safeDiv s.totalWait processes.length
    aveTurnaround := safeDiv s.totalTurnaround processes.length
    throughput := safeDiv processes.length s.lastCompletion
    procsAfter := sorted }

/-! ### Preemptive shortest-remaining-time (`SJFSchedule`, Go lines 125-201)

The Go loop `for procDone < n` has no structural bound, so the embedded
run takes a fuel argument and yields `none` when the fuel runs out; the
Go loop terminating corresponds to some fuel sufficing. -/

/-- Per-process working state of `SJFSchedule`: the parallel Go arrays
`remainingBursts` and `completed`, bundled with the (never modified)
process record. -/
structure SJFSlot where
  proc : Process
  remaining : Int
  completed : Bool
deriving DecidableEq, Inhabited

/-- The literal `int64(math.MaxInt64)` sentinel that initialises
`shortestTime` in the selection scan. -/
def maxInt64 : Int := 2 ^ 63 - 1

/-- The selection scan of `SJFSchedule` (Go lines 149-154): a left fold
over the indexed slots carrying `(shortestIdx, shortestTime)`; Go's
`shortestIdx == -1` is modelled as `none`.  The strict comparison
`remaining < shortestTime` makes the first index with minimal remaining
burst win. -/
def sjfScanAux (t : Int) : List SJFSlot → Nat → Option Nat × Int → Option Nat × Int
  | [], _, acc => acc
  | slot :: rest, i, acc =>
    sjfScanAux t rest (i + 1)
      (if slot.completed = false ∧ slot.proc.ArrivalTime ≤ t ∧ slot.remaining < acc.2
       then (some i, slot.remaining) else acc)

/-- Full selection scan starting from `(-1, MaxInt64)`. -/
def sjfScan (slots : List SJFSlot) (t : Int) : Option Nat × Int :=
  sjfScanAux t slots 0 (none, maxInt64)

/-- Whole-loop state of `SJFSchedule`.  `schedule` mirrors the Go array
`schedule := make([][]string, n)`: entry `i` is `none` until process `i`
completes. -/
structure SJFState where
  slots : List SJFSlot
  currentTime : Int
  procDone : Nat
  totalWait : Int
  totalTurnaround : Int
  lastCompletion : Int
  schedule : List (Option ScheduleRow)
  gantt : List TimeSlice
deriving DecidableEq

/-- One iteration of the `for procDone < n` loop of `SJFSchedule`:
idle (`currentTime++`) when the scan selects nobody; otherwise advance
the clock, decrement the selected slot's remaining burst, and on
reaching zero record completion, row and Gantt slice. -/
def sjfStep (s : SJFState) : SJFState :=
  match (sjfScan s.slots s.currentTime).1 with
  | none => { s with currentTime := s.currentTime + 1 }
  | some i =>
    let t := s.currentTime + 1
    let slot := s.slots.getD i default
    let rem := slot.remaining - 1
    if rem = 0 then
      let p := slot.proc
      let wait := t - p.BurstDuration - p.ArrivalTime
      let turnaround := p.BurstDuration + wait
      { slots := s.slots.set i { slot with remaining := rem, completed := true }
        currentTime := t
        procDone := s.procDone + 1
        totalWait := s.totalWait + wait
        totalTurnaround := s.totalTurnaround + turnaround
        lastCompletion := t
        schedule := s.schedule.set i
          (some ⟨p.ProcessID, p.Priority, p.BurstDuration, p.ArrivalTime, wait, turnaround, t⟩)
        gantt := s.gantt ++ [⟨p.ProcessID, t - p.BurstDuration + wait, t⟩] }
    else
      { s with slots := s.slots.set i { slot with remaining := rem }, currentTime := t }

/-- The `for procDone < n` loop with fuel. -/
def sjfRun : Nat → SJFState → Option SJFState
  | 0, s => if s.procDone < s.slots.length then none else some s
  | fuel + 1, s =>
    if s.procDone < s.slots.length then sjfRun fuel (sjfStep s) else some s

/-- Initial `SJFSchedule` state for a process list. -/
def sjfInit (processes : List Process) : SJFState :=
  { slots := processes.map fun p => ⟨p, p.BurstDuration, false⟩
    currentTime := 0
    procDone := 0
    totalWait := 0
    totalTurnaround := 0
    lastCompletion := 0
    schedule := List.replicate processes.length none
    gantt := [] }

/-- `SJFSchedule` with fuel: the rows handed to the presentation layer
are the filled entries of the per-index schedule array.  The input list
is not sorted or otherwise written, hence `procsAfter := processes`. -/
def SJFSchedule (fuel : Nat) (processes : List Process) : Option ScheduleResult :=
  (sjfRun fuel (sjfInit processes)).map fun s =>
    { rows := s.schedule.filterMap id
      gantt := s.gantt
      aveWait := safeDiv s.totalWait processes.length
      aveTurnaround := safeDiv s.totalTurnaround processes.length
      throughput := safeDiv processes.length s.lastCompletion
      procsAfter := processes }

/-- Termination of the Go `for procDone < n` loop: some fuel suffices. -/
def sjfTerminates (processes : List Process) : Prop :=
  ∃ fuel, (sjfRun fuel (sjfInit processes)).isSome

/-! ### Round-robin (`RRSchedule`, Go lines 264-351) -/

/-- The quantum constant, written in Go as `((5 + 9 + 6) / 3)`. -/
def quantum : Int := (5 + 9 + 6) / 3

/-- Whole-loop state of `RRSchedule` after the in-place sort.
`completedProcesses` doubles — exactly as in the source — as the
completion counter and as the admission cursor of the `for i :=
completedProcesses; ...` loop. -/
structure RRState where
  currentTime : Int
  remaining : List Int
  completionTimes : List Int
  queue : List Nat
  completedProcesses : Nat
  totalWait : Int
  totalTurnaround : Int
  lastCompletion : Int
  gantt : List TimeSlice
deriving DecidableEq

/-- The admission loop (Go lines 322-325), with a structural bound:
the cursor `cp` increases every iteration and the loop stops once it
reaches `ps.length`, so `ps.length - cp` iterations always suffice (when
the bound is exhausted the cursor has reached `ps.length` and the
`cp < ps.length` guard is false anyway). -/
def rrAdmitAux (ps : List Process) (t : Int) : Nat → Nat → List Nat → Nat × List Nat
  | 0, cp, q => (cp, q)
  | bound + 1, cp, q =>
    if cp < ps.length ∧ (ps.getD cp default).ArrivalTime ≤ t then
      rrAdmitAux ps t bound (cp + 1) (q ++ [cp])
    else (cp, q)

/-- The admission loop: starting from the cursor `cp`, enqueue every
further index whose arrival time is at or before the current time,
advancing the cursor past each. -/
def rrAdmit (ps : List Process) (t : Int) (cp : Nat) (q : List Nat) : Nat × List Nat :=
  rrAdmitAux ps t (ps.length - cp) cp q

/-- One iteration of the `for queue.Len() > 0` loop of `RRSchedule`,
given the popped front index `i` and the rest of the queue: finish the
process when its remaining burst fits in the quantum (recording row
data and a Gantt slice), otherwise preempt and re-enqueue it; then run
the admission loop. -/
def rrStep (ps : List Process) (s : RRState) (i : Nat) (rest : List Nat) : RRState :=
  let p := ps.getD i default
  let rem := s.remaining.getD i 0
  let s1 : RRState :=
    if rem ≤ quantum then
      let t := s.currentTime + rem
      let wait := t - p.BurstDuration - p.ArrivalTime
      let turnaround := p.BurstDuration + wait
      { s with
        currentTime := t
        remaining := s.remaining.set i 0
        totalWait := s.totalWait + wait
        totalTurnaround := s.totalTurnaround + turnaround
        lastCompletion := t
        completionTimes := s.completionTimes.set i t
        gantt := s.gantt ++ [⟨p.ProcessID, t - p.BurstDuration + wait, t⟩]
        completedProcesses := s.completedProcesses + 1
        queue := rest }
    else
      { s with
        currentTime := s.currentTime + quantum
        remaining := s.remaining.set i (rem - quantum)
        queue := rest ++ [i] }
  let aq := rrAdmit ps s1.currentTime s1.completedProcesses s1.queue
  { s1 with completedProcesses := aq.1, queue := aq.2 }

/-- The `for queue.Len() > 0` loop with fuel. -/
def rrRun (ps : List Process) : Nat → RRState → Option RRState
  | 0, s => if s.queue = [] then some s else none
  | fuel + 1, s =>
    match s.queue with
    | [] => some s
    | i :: rest => rrRun ps fuel (rrStep ps s i rest)

/-- Initial `RRSchedule` state for the (already sorted) process list:
index 0 is enqueued — without advancing the admission cursor — whenever
the list is non-empty. -/
def rrInit (ps : List Process) : RRState :=
  { currentTime := 0
    remaining := ps.map Process.BurstDuration
    completionTimes := List.replicate ps.length 0
    queue := if 0 < ps.length then [0] else []
    completedProcesses := 0
    totalWait := 0
    totalTurnaround := 0
    lastCompletion := 0
    gantt := [] }

/-- The final `for idx, p := range processes` loop of `RRSchedule`
(Go lines 328-341), deriving each row from the recorded completion
time. -/
def rrRows (ps : List Process) (cts : List Int) : List ScheduleRow :=
  (ps.zip cts).map fun pc =>
    let wait := pc.2 - pc.1.BurstDuration - pc.1.ArrivalTime
    ⟨pc.1.ProcessID, pc.1.Priority, pc.1.BurstDuration, pc.1.ArrivalTime,
      wait, pc.1.BurstDuration + wait, pc.2⟩

/-- `RRSchedule` with fuel: sort the caller's slice in place by arrival
time, run the queue loop, then derive the rows. -/
def RRSchedule (fuel : Nat) (processes : List Process) : Option ScheduleResult :=
  let sorted := List.insertionSort arrLE processes
  (rrRun sorted fuel (rrInit sorted)).map fun s =>
    { rows := rrRows sorted s.completionTimes
      gantt := s.gantt
      aveWait := safeDiv s.totalWait processes.length
      aveTurnaround := safeDiv s.totalTurnaround processes.length
      throughput := safeDiv processes.length s.lastCompletion
      procsAfter := sorted }

/-! ### Spec-level predicates -/

/-- Row-level invariant claimed for all algorithms: turnaround is burst
plus wait, and completion is arrival plus wait plus burst. -/
def RowOk (r : ScheduleRow) : Prop :=
  r.turnaround = r.burst + r.wait ∧ r.completion = r.arrival + r.wait + r.burst

/-- Data-model preconditions on an input list: non-negative arrival and
positive burst for every process. -/
def ValidInput (ps : List Process) : Prop :=
  ∀ p ∈ ps, 0 ≤ p.ArrivalTime ∧ 0 < p.BurstDuration

/-- Running sum of bursts of a prefix (the value of `serviceTime` before
a given iteration of the FCFS loop). -/
def burstSum (ps : List Process) : Int :=
  (ps.map Process.BurstDuration).sum

instance : DecidablePred ValidInput := fun ps => by unfold ValidInput; infer_instance

instance : DecidablePred RowOk := fun r => by unfold RowOk; infer_instance

/-- Eligibility in the `SJFSchedule` scan: not yet complete and already
arrived. -/
def Elig (t : Int) (slot : SJFSlot) : Prop :=
  slot.completed = false ∧ slot.proc.ArrivalTime ≤ t

instance (t : Int) : DecidablePred (Elig t) := fun slot => by unfold Elig; infer_instance

/-- What one iteration of the `SJFSchedule` loop does, as claimed
(restricted below to states whose remaining bursts are beneath the
`MaxInt64` sentinel): if the scan selects `i`, then slot `i` is
eligible, has minimal remaining burst among eligible slots with ties
broken towards the lowest index, and the step decrements exactly that
slot's remaining burst while advancing the clock by one; if the scan
selects nobody, then no slot is eligible and the step only advances the
clock (in particular it records no Gantt slice). -/
def SJFStepSpec (s : SJFState) : Prop :=
  (∀ i, (sjfScan s.slots s.currentTime).1 = some i →
    ∃ slot, s.slots.get? i = some slot ∧ Elig s.currentTime slot ∧
      (∀ j slotj, s.slots.get? j = some slotj → Elig s.currentTime slotj →
        slot.remaining ≤ slotj.remaining ∧ (j < i → slot.remaining < slotj.remaining)) ∧
      (sjfStep s).currentTime = s.currentTime + 1 ∧
      (∃ slot2, (sjfStep s).slots.get? i = some slot2 ∧
        slot2.proc = slot.proc ∧ slot2.remaining = slot.remaining - 1) ∧
      (∀ j, j ≠ i → (sjfStep s).slots.get? j = s.slots.get? j)) ∧
  ((sjfScan s.slots s.currentTime).1 = none →
    (∀ slot ∈ s.slots, ¬ Elig s.currentTime slot) ∧
    sjfStep s = { s with currentTime := s.currentTime + 1 })

/-- Two processes that agree on everything except possibly the
`Priority` field. -/
def samePB (p q : Process) : Prop :=
  p.ProcessID = q.ProcessID ∧ p.ArrivalTime = q.ArrivalTime ∧
    p.BurstDuration = q.BurstDuration

/-- Two schedule rows that agree on every column except possibly the
displayed priority. -/
def rowAgree (r s : ScheduleRow) : Prop :=
  r.id = s.id ∧ r.burst = s.burst ∧ r.arrival = s.arrival ∧
    r.wait = s.wait ∧ r.turnaround = s.turnaround ∧ r.completion = s.completion

/-- A schedule row that reproduces a process's static fields. -/
def rowMatches (r : ScheduleRow) (p : Process) : Prop :=
  r.id = p.ProcessID ∧ r.priority = p.Priority ∧
    r.burst = p.BurstDuration ∧ r.arrival = p.ArrivalTime

/-- What claim C9 asserts of `SJFPrioritySchedule` on two inputs that
differ only in priorities: the jobs are processed in the order obtained
by sorting the input by (arrival ascending, burst ascending) — the rows
correspond one-to-one, in order, to that sorted permutation — and the
entire outcome apart from the displayed priority column is identical for
the two inputs. -/
def spPrioIndependence (ps qs : List Process) : Prop :=
  (List.Sorted prLE (SJFPrioritySchedule ps).procsAfter ∧
    (SJFPrioritySchedule ps).procsAfter.Perm ps ∧
    List.Forall₂ rowMatches (SJFPrioritySchedule ps).rows
      (SJFPrioritySchedule ps).procsAfter) ∧
  (List.Forall₂ rowAgree (SJFPrioritySchedule ps).rows (SJFPrioritySchedule qs).rows ∧
    (SJFPrioritySchedule ps).gantt = (SJFPrioritySchedule qs).gantt ∧
    (SJFPrioritySchedule ps).aveWait = (SJFPrioritySchedule qs).aveWait ∧
    (SJFPrioritySchedule ps).aveTurnaround = (SJFPrioritySchedule qs).aveTurnaround ∧
    (SJFPrioritySchedule ps).throughput = (SJFPrioritySchedule qs).throughput)

/-- Closed form of the rows produced by the FCFS loop from a given
`serviceTime` clock `st` and carried `waitingTime` `w`; used to reason
positionally about `FCFSSchedule`. -/
def fcfsRows (st w : Int) : List Process → List ScheduleRow
  | [] => []
  | p :: rest =>
    let w2 := if 0 < p.ArrivalTime then st - p.ArrivalTime else w
    ⟨p.ProcessID, p.Priority, p.BurstDuration, p.ArrivalTime, w2,
      p.BurstDuration + w2, p.BurstDuration + p.ArrivalTime + w2⟩
      :: fcfsRows (st + p.BurstDuration) w2 rest

/-- Per-slot bounds maintained by the `SJFSchedule` loop when every
burst is in `[1, MaxInt64)`: a not-yet-complete slot has at least one
unit of remaining burst, remaining burst is never negative nor above the
original burst, and the burst is below the scan sentinel. -/
def sjfBound (s : SJFState) : Prop :=
  ∀ slot ∈ s.slots, (slot.completed = false → 1 ≤ slot.remaining) ∧
    0 ≤ slot.remaining ∧ slot.remaining ≤ slot.proc.BurstDuration ∧
    slot.proc.BurstDuration < maxInt64

/-- `procDone` counts exactly the completed slots. -/
def sjfCount (s : SJFState) : Prop :=
  s.procDone = s.slots.countP (fun sl => sl.completed)

/-- All arrival times are at most `A`. -/
def sjfArrBound (A : Int) (s : SJFState) : Prop :=
  ∀ slot ∈ s.slots, slot.proc.ArrivalTime ≤ A

/-- Termination measure for the `SJFSchedule` loop: total remaining
burst plus the clock distance below the arrival bound. -/
def sjfMeasure (A : Int) (s : SJFState) : Nat :=
  (s.slots.map fun sl => sl.remaining.toNat).sum + (A - s.currentTime).toNat

/-! ## Theorems -/

/-- Claim C4 (code bug): none of the four algorithms detects the empty
input.  Each of them unconditionally computes the aggregate metrics,
whose divisions by the zero process count (and zero last completion)
are non-finite — `none` here, `NaN` in the Go `float64` arithmetic —
and hands them to the presentation layer instead of returning any
empty-result or error signal (the functions have no error channel at
all). -/
theorem C4_empty_input_bug :
    FCFSSchedule [] = ⟨[], [], none, none, none, []⟩ ∧
    SJFSchedule 0 [] = some ⟨[], [], none, none, none, []⟩ ∧
    SJFPrioritySchedule [] = ⟨[], [], none, none, none, []⟩ ∧
    RRSchedule 0 [] = some ⟨[], [], none, none, none, []⟩ := by
  decide

/-- Claim C2 (code bug): on `[(1,arrival 0,burst 10),(2,arrival 1,burst 4)]`
with quantum 6, process 1 is indeed preempted at time 6 with 4 units
remaining and the final completion time is 14, but the admission loop —
whose cursor `completedProcesses` also counts completions and is not
advanced by the initial enqueue of index 0 — re-admits index 0 after the
preemption.  Process 1 therefore runs again (completing at 10 and being
popped a third time with zero remaining burst, which appends a duplicate
completion Gantt slice for PID 1), and only then does process 2 run,
completing at 14: process 2 does not run next after the preemption, and
index 0 is enqueued twice rather than exactly once. -/
theorem C2_rr_admission_bug :
    (RRSchedule 10 [⟨1, 0, 10, 0⟩, ⟨2, 1, 4, 0⟩]).map ScheduleResult.gantt
        = some [⟨1, 0, 10⟩, ⟨1, 0, 10⟩, ⟨2, 19, 14⟩] ∧
    (RRSchedule 10 [⟨1, 0, 10, 0⟩, ⟨2, 1, 4, 0⟩]).map ScheduleResult.rows
        = some [⟨1, 0, 10, 0, 0, 10, 10⟩, ⟨2, 0, 4, 1, 9, 13, 14⟩] ∧
    (rrRun [⟨1, 0, 10, 0⟩, ⟨2, 1, 4, 0⟩] 10 (rrInit [⟨1, 0, 10, 0⟩, ⟨2, 1, 4, 0⟩])).map
        RRState.completedProcesses = some 5 ∧
    (rrRun [⟨1, 0, 10, 0⟩, ⟨2, 1, 4, 0⟩] 10 (rrInit [⟨1, 0, 10, 0⟩, ⟨2, 1, 4, 0⟩])).map
        RRState.lastCompletion = some 14 := by
  decide

/-- Claim C7 (code bug): on the valid input with bursts 2, 2, 1 (all
arrivals 0) the preemptive shortest-job scheduler records the Gantt
slice `(PID 2, start 6, stop 5)` — start exceeds stop, because the code
computes the slice start as completion − burst + wait instead of
completion − burst − wait — so recorded slices are not all
well-formed. -/
theorem C7_gantt_malformed_bug :
    (SJFSchedule 10 [⟨1, 0, 2, 0⟩, ⟨2, 0, 2, 0⟩, ⟨3, 0, 1, 0⟩]).map ScheduleResult.gantt
        = some [⟨3, 0, 1⟩, ⟨1, 2, 3⟩, ⟨2, 6, 5⟩] ∧
    (∃ sl ∈ [TimeSlice.mk 3 0 1, ⟨1, 2, 3⟩, ⟨2, 6, 5⟩], sl.Stop < sl.Start) ∧
    ValidInput [⟨1, 0, 2, 0⟩, ⟨2, 0, 2, 0⟩, ⟨3, 0, 1, 0⟩] := by
  decide

/-- Claim C3 counterexample: `SJFPrioritySchedule` sorts the caller's
slice in place, so after the call the caller's sequence is reordered —
on the two-process input with arrivals 2 and 0 the slice comes back
with the processes swapped, not unchanged. -/
theorem C3_no_mutation_cex :
    (SJFPrioritySchedule [⟨1, 2, 6, 0⟩, ⟨2, 0, 8, 0⟩]).procsAfter
      ≠ [⟨1, 2, 6, 0⟩, ⟨2, 0, 8, 0⟩] := by
  decide

/-- Claim C5 counterexample: for the single process with arrival 5 and
burst 3 (arrival &gt; 0, so the wait is recomputed), `FCFSSchedule`
reports wait −5 = serviceTime − arrival, not
max(0, serviceTime − arrival) = 0: the code has no clamping. -/
theorem C5_fcfs_wait_cex :
    (FCFSSchedule [⟨1, 5, 3, 0⟩]).rows.map ScheduleRow.wait = [-5] ∧
    ¬ (-5 : Int) = max 0 ((0 : Int) - 5) := by
  decide

/-- Claim C6 counterexample: on inputs satisfying every documented
precondition (positive burst, non-negative arrival, FCFS input
arrival-sorted), both `FCFSSchedule` and `RRSchedule` report negative
waits as soon as a process arrives after the accumulated service time
(FCFS: single process with arrival 1 gets wait −1; round-robin: single
process with arrival 3 and burst 2 gets wait −3, since index 0 is
enqueued at time 0 regardless of its arrival time). -/
theorem C6_wait_nonneg_cex :
    ValidInput [⟨1, 1, 1, 0⟩] ∧ List.Sorted arrLE [⟨1, 1, 1, 0⟩] ∧
    (∃ row ∈ (FCFSSchedule [⟨1, 1, 1, 0⟩]).rows, row.wait < 0) ∧
    ValidInput [⟨1, 3, 2, 0⟩] ∧
    (RRSchedule 10 [⟨1, 3, 2, 0⟩]).map (fun r => r.rows.map ScheduleRow.wait)
      = some [-3] := by
  decide

/-- Claim C8 counterexample: in the initial state for the single process
with burst 2^63 − 1, slot 0 is eligible (not complete, arrival 0 ≤
time 0), yet the scan — whose `shortestTime` sentinel starts at exactly
`MaxInt64`, which the strict comparison `remaining < shortestTime` never
beats — selects nobody, and the step advances the clock by one instead
of running the eligible process with the smallest remaining burst. -/
theorem C8_selection_cex :
    ((sjfInit [⟨1, 0, maxInt64, 0⟩]).slots.getD 0 default).completed = false ∧
    ((sjfInit [⟨1, 0, maxInt64, 0⟩]).slots.getD 0 default).proc.ArrivalTime
      ≤ (sjfInit [⟨1, 0, maxInt64, 0⟩]).currentTime ∧
    (sjfScan (sjfInit [⟨1, 0, maxInt64, 0⟩]).slots
        (sjfInit [⟨1, 0, maxInt64, 0⟩]).currentTime).1 = none ∧
    sjfStep (sjfInit [⟨1, 0, maxInt64, 0⟩])
      = { sjfInit [⟨1, 0, maxInt64, 0⟩] with currentTime := 1 } := by
  decide

/-- Helper for the C10 counterexample: on the single process whose burst
is exactly `MaxInt64`, the scan's strict comparison against the
`MaxInt64` sentinel never selects it, so one loop iteration only
advances the clock. -/
theorem sjfStuckStep (t : Int) :
    sjfStep ⟨[⟨⟨1, 0, maxInt64, 0⟩, maxInt64, false⟩], t, 0, 0, 0, 0, [none], []⟩
      = ⟨[⟨⟨1, 0, maxInt64, 0⟩, maxInt64, false⟩], t + 1, 0, 0, 0, 0, [none], []⟩ := by
  simp [sjfStep, sjfScan, sjfScanAux]

/-- Helper for the C10 counterexample: no amount of fuel finishes the
`SJFSchedule` loop on the single `MaxInt64`-burst process. -/
theorem sjfStuckRun (fuel : Nat) : ∀ t : Int,
    sjfRun fuel ⟨[⟨⟨1, 0, maxInt64, 0⟩, maxInt64, false⟩], t, 0, 0, 0, 0, [none], []⟩
      = none := by
  induction fuel with
  | zero => intro t; simp [sjfRun]
  | succ n ih =>
    intro t
    rw [sjfRun, if_pos (by simp), sjfStuckStep]
    exact ih (t + 1)

/-- Claim C10 counterexample: the claim promises termination for every
input whose bursts are all at least 1, but the single process with
burst 2^63 − 1 (a representable `int64` value, and ≥ 1) defeats the
`MaxInt64` sentinel of the selection scan: the loop idles forever and no
fuel makes `sjfRun` return. -/
theorem C10_termination_cex :
    (∀ p ∈ [Process.mk 1 0 maxInt64 0], 1 ≤ p.BurstDuration) ∧
    ¬ sjfTerminates [⟨1, 0, maxInt64, 0⟩] := by
  refine ⟨by decide, ?_⟩
  rintro ⟨fuel, h⟩
  have hinit : sjfInit [⟨1, 0, maxInt64, 0⟩]
      = ⟨[⟨⟨1, 0, maxInt64, 0⟩, maxInt64, false⟩], 0, 0, 0, 0, 0, [none], []⟩ := rfl
  rw [hinit, sjfStuckRun] at h
  simp at h

/-! ### Step equations for `sjfStep` -/

/-- Idle equation: when the scan selects nobody, only the clock moves. -/
theorem sjfStep_none (s : SJFState) (h : (sjfScan s.slots s.currentTime).1 = none) :
    sjfStep s = { s with currentTime := s.currentTime + 1 } := by
  unfold sjfStep; rw [h]

/-- Completion equation: the selected slot's remaining burst reaches
zero, so the row and Gantt slice are recorded. -/
theorem sjfStep_some_done (s : SJFState) (i : Nat)
    (h : (sjfScan s.slots s.currentTime).1 = some i)
    (hrem : (s.slots.getD i default).remaining - 1 = 0) :
    sjfStep s =
      { slots := s.slots.set i
          { s.slots.getD i default with
            remaining := (s.slots.getD i default).remaining - 1, completed := true }
        currentTime := s.currentTime + 1
        procDone := s.procDone + 1
        totalWait := s.totalWait +
          (s.currentTime + 1 - (s.slots.getD i default).proc.BurstDuration
            - (s.slots.getD i default).proc.ArrivalTime)
        totalTurnaround := s.totalTurnaround +
          ((s.slots.getD i default).proc.BurstDuration +
            (s.currentTime + 1 - (s.slots.getD i default).proc.BurstDuration
              - (s.slots.getD i default).proc.ArrivalTime))
        lastCompletion := s.currentTime + 1
        schedule := s.schedule.set i
          (some ⟨(s.slots.getD i default).proc.ProcessID,
            (s.slots.getD i default).proc.Priority,
            (s.slots.getD i default).proc.BurstDuration,
            (s.slots.getD i default).proc.ArrivalTime,
            s.currentTime + 1 - (s.slots.getD i default).proc.BurstDuration
              - (s.slots.getD i default).proc.ArrivalTime,
            (s.slots.getD i default).proc.BurstDuration +
              (s.currentTime + 1 - (s.slots.getD i default).proc.BurstDuration
                - (s.slots.getD i default).proc.ArrivalTime),
            s.currentTime + 1⟩)
        gantt := s.gantt ++ [⟨(s.slots.getD i default).proc.ProcessID,
          s.currentTime + 1 - (s.slots.getD i default).proc.BurstDuration +
            (s.currentTime + 1 - (s.slots.getD i default).proc.BurstDuration
              - (s.slots.getD i default).proc.ArrivalTime),
          s.currentTime + 1⟩] } := by
  unfold sjfStep; rw [h]; simp only [hrem, if_pos]

/-- Preemption-continue equation: remaining burst still positive after
the decrement, so only the slot and the clock change. -/
theorem sjfStep_some_cont (s : SJFState) (i : Nat)
    (h : (sjfScan s.slots s.currentTime).1 = some i)
    (hrem : ¬ (s.slots.getD i default).remaining - 1 = 0) :
    sjfStep s =
      { s with
        slots := s.slots.set i
          { s.slots.getD i default with
            remaining := (s.slots.getD i default).remaining - 1 }
        currentTime := s.currentTime + 1 } := by
  unfold sjfStep; rw [h]; simp only [hrem, if_neg, if_false]

/-- Invariant preservation through the fuelled `SJFSchedule` loop. -/
theorem sjfRun_inv {P : SJFState → Prop} (hP : ∀ s, P s → P (sjfStep s)) :
    ∀ fuel s r, P s → sjfRun fuel s = some r → P r := by
  intro fuel
  induction fuel with
  | zero =>
    intro s r hs h
    unfold sjfRun at h
    split at h
    · cases h
    · cases h; exact hs
  | succ n ih =>
    intro s r hs h
    rw [sjfRun] at h
    split at h
    · exact ih _ _ (hP s hs) h
    · cases h; exact hs

/-! ### Claim C1: row identities -/

/-- FCFS loop: every appended row satisfies the identities. -/
theorem fcfsRun_rowOk : ∀ (ps : List Process) (s : FCFSState),
    (∀ r ∈ s.schedule, RowOk r) → ∀ r ∈ (fcfsRun s ps).schedule, RowOk r := by
  intro ps
  induction ps with
  | nil => intro s hs; exact hs
  | cons p rest ih =>
    intro s hs
    refine ih (fcfsStep s p) ?_
    intro r hr
    rcases List.mem_append.1 hr with h | h
    · exact hs r h
    · rcases List.mem_singleton.1 h with rfl
      exact ⟨rfl, by dsimp; ring⟩

/-- Priority-variant loop: every appended row satisfies the identities. -/
theorem spRun_rowOk : ∀ (ps : List Process) (s : SPState),
    (∀ r ∈ s.schedule, RowOk r) → ∀ r ∈ (spRun s ps).schedule, RowOk r := by
  intro ps
  induction ps with
  | nil => intro s hs; exact hs
  | cons p rest ih =>
    intro s hs
    refine ih (spStep s p) ?_
    intro r hr
    rcases List.mem_append.1 hr with h | h
    · exact hs r h
    · rcases List.mem_singleton.1 h with rfl
      refine ⟨rfl, ?_⟩
      dsimp [spStep]
      split <;> ring

/-- SJF loop: every filled schedule entry satisfies the identities. -/
theorem sjfStep_rowOk (s : SJFState)
    (h : ∀ o ∈ s.schedule, ∀ r, o = some r → RowOk r) :
    ∀ o ∈ (sjfStep s).schedule, ∀ r, o = some r → RowOk r := by
  intro o ho r hor
  rcases hscan : (sjfScan s.slots s.currentTime).1 with _ | i
  · rw [sjfStep_none s hscan] at ho
    exact h o ho r hor
  · by_cases hrem : (s.slots.getD i default).remaining - 1 = 0
    · rw [sjfStep_some_done s i hscan hrem] at ho
      rcases List.mem_or_eq_of_mem_set ho with hmem | rfl
      · exact h o hmem r hor
      · cases hor
        exact ⟨rfl, by dsimp; ring⟩
    · rw [sjfStep_some_cont s i hscan hrem] at ho
      exact h o ho r hor

/-- Round-robin final row derivation: identities hold by arithmetic for
whatever completion times were recorded. -/
theorem rrRows_rowOk (ps : List Process) (cts : List Int) :
    ∀ r ∈ rrRows ps cts, RowOk r := by
  intro r hr
  rcases List.mem_map.1 hr with ⟨pc, _, rfl⟩
  exact ⟨rfl, by dsimp; ring⟩

/-- Claim C1 (confirmed): for every algorithm and every valid input,
every emitted schedule row satisfies turnaround = burst + wait and
completion = arrival + wait + burst. -/
theorem C1_row_identities (ps : List Process) (hv : ValidInput ps) :
    (∀ r ∈ (FCFSSchedule ps).rows, RowOk r) ∧
    (∀ r ∈ (SJFPrioritySchedule ps).rows, RowOk r) ∧
    (∀ fuel res, SJFSchedule fuel ps = some res → ∀ r ∈ res.rows, RowOk r) ∧
    (∀ fuel res, RRSchedule fuel ps = some res → ∀ r ∈ res.rows, RowOk r) := by
  refine ⟨?_, ?_, ?_, ?_⟩
  · exact fcfsRun_rowOk ps _ (by intro r hr; cases hr)
  · exact spRun_rowOk _ _ (by intro r hr; cases hr)
  · intro fuel res hres r hr
    rcases Option.map_eq_some'.1 hres with ⟨sfin, hrun, rfl⟩
    have hinv : ∀ o ∈ sfin.schedule, ∀ r', o = some r' → RowOk r' := by
      refine sjfRun_inv (fun s hs => sjfStep_rowOk s hs) fuel (sjfInit ps) sfin ?_ hrun
      intro o ho r' hor'
      rw [List.eq_of_mem_replicate ho] at hor'
      cases hor'
    rcases List.mem_filterMap.1 hr with ⟨o, ho, hor⟩
    exact hinv o ho r hor
  · intro fuel res hres r hr
    rcases Option.map_eq_some'.1 hres with ⟨sfin, _, rfl⟩
    exact rrRows_rowOk _ _ r hr

/-- Witness for C1 at a concrete valid input (the two-process example of
the specification), checking also that the fuelled runs do return. -/
theorem C1_row_identities_witness :
    ValidInput [⟨1, 0, 5, 0⟩, ⟨2, 1, 3, 0⟩] ∧
    (SJFSchedule 20 [⟨1, 0, 5, 0⟩, ⟨2, 1, 3, 0⟩]).isSome ∧
    (RRSchedule 20 [⟨1, 0, 5, 0⟩, ⟨2, 1, 3, 0⟩]).isSome ∧
    ((∀ r ∈ (FCFSSchedule [⟨1, 0, 5, 0⟩, ⟨2, 1, 3, 0⟩]).rows, RowOk r) ∧
     (∀ r ∈ (SJFPrioritySchedule [⟨1, 0, 5, 0⟩, ⟨2, 1, 3, 0⟩]).rows, RowOk r) ∧
     (∀ fuel res, SJFSchedule fuel [⟨1, 0, 5, 0⟩, ⟨2, 1, 3, 0⟩] = some res →
        ∀ r ∈ res.rows, RowOk r) ∧
     (∀ fuel res, RRSchedule fuel [⟨1, 0, 5, 0⟩, ⟨2, 1, 3, 0⟩] = some res →
        ∀ r ∈ res.rows, RowOk r)) :=
  ⟨by decide, by decide, by decide, C1_row_identities _ (by decide)⟩

/-! ### Claim C5: the FCFS wait formula -/

/-- The FCFS loop produces exactly the rows described by `fcfsRows`. -/
theorem fcfsRun_schedule : ∀ (ps : List Process) (s : FCFSState),
    (fcfsRun s ps).schedule = s.schedule ++ fcfsRows s.serviceTime s.waitingTime ps := by
  intro ps
  induction ps with
  | nil => intro s; simp [fcfsRun, fcfsRows]
  | cons p rest ih =>
    intro s
    rw [fcfsRun, ih, fcfsRows]
    simp [fcfsStep]

/-- Positional wait values of `fcfsRows`: recomputed (without clamping)
when the arrival is positive, carried over otherwise. -/
theorem fcfsRows_wait_spec : ∀ (ps : List Process) (st w : Int) (i : Nat), i < ps.length →
    ((fcfsRows st w ps).getD i default).wait =
      if 0 < (ps.getD i default).ArrivalTime
      then st + burstSum (ps.take i) - (ps.getD i default).ArrivalTime
      else if i = 0 then w else ((fcfsRows st w ps).getD (i - 1) default).wait := by
  intro ps
  induction ps with
  | nil => intro st w i hi; cases hi
  | cons p rest ih =>
    intro st w i hi
    cases i with
    | zero =>
      simp only [fcfsRows, List.getD_cons_zero, List.take_zero, burstSum, List.map_nil,
        List.sum_nil, if_pos rfl, add_zero]
      split <;> rfl
    | succ k =>
      have hk : k < rest.length := by simpa using hi
      have hrec := ih (st + p.BurstDuration) (if 0 < p.ArrivalTime then st - p.ArrivalTime else w) k hk
      simp only [fcfsRows, List.getD_cons_succ, List.take_succ_cons, burstSum, List.map_cons,
        List.sum_cons] at hrec ⊢
      rw [hrec]
      rcases Nat.eq_zero_or_pos k with rfl | hkpos
      · simp only [Nat.succ_sub_one, List.getD_cons_zero]
        split
        · ring_nf
        · rfl
      · have h1 : ¬ (k + 1 = 0) := by omega
        have h2 : k + 1 - 1 = k := by omega
        have h3 : ∃ k', k = k' + 1 := ⟨k - 1, by omega⟩
        rcases h3 with ⟨k', rfl⟩
        simp only [h2, List.getD_cons_succ, Nat.succ_sub_one]
        split
        · ring_nf
        · rfl

/-- Claim C5 (amended): in `FCFSSchedule`, a process with positive
arrival gets wait = serviceTime − arrival — the running burst sum of the
earlier processes minus its arrival, with no clamping at zero — and a
process with non-positive arrival inherits the previous iteration's
wait (zero for the first process). -/
theorem C5_fcfs_wait_amended (ps : List Process) (i : Nat) (hi : i < ps.length) :
    (((FCFSSchedule ps).rows).getD i default).wait =
      if 0 < (ps.getD i default).ArrivalTime
      then burstSum (ps.take i) - (ps.getD i default).ArrivalTime
      else if i = 0 then 0 else (((FCFSSchedule ps).rows).getD (i - 1) default).wait := by
  have hrows : (FCFSSchedule ps).rows = fcfsRows 0 0 ps := by
    show (fcfsRun ⟨0, 0, 0, 0, 0, [], []⟩ ps).schedule = _
    rw [fcfsRun_schedule]
    rfl
  rw [hrows]
  have h := fcfsRows_wait_spec ps 0 0 i hi
  simpa using h

/-- Witness for C5 at the second process of the specification's FCFS
example. -/
theorem C5_fcfs_wait_amended_witness :
    1 < ([⟨1, 0, 5, 0⟩, ⟨2, 1, 3, 0⟩] : List Process).length ∧
    ((((FCFSSchedule [⟨1, 0, 5, 0⟩, ⟨2, 1, 3, 0⟩]).rows).getD 1 default).wait =
      if 0 < (([⟨1, 0, 5, 0⟩, ⟨2, 1, 3, 0⟩] : List Process).getD 1 default).ArrivalTime
      then burstSum (([⟨1, 0, 5, 0⟩, ⟨2, 1, 3, 0⟩] : List Process).take 1)
        - (([⟨1, 0, 5, 0⟩, ⟨2, 1, 3, 0⟩] : List Process).getD 1 default).ArrivalTime
      else if (1 : Nat) = 0 then 0
      else (((FCFSSchedule [⟨1, 0, 5, 0⟩, ⟨2, 1, 3, 0⟩]).rows).getD 0 default).wait) :=
  ⟨by decide, C5_fcfs_wait_amended [⟨1, 0, 5, 0⟩, ⟨2, 1, 3, 0⟩] 1 (by decide)⟩

/-! ### Characterization of the `SJFSchedule` selection scan -/

/-- The running minimum of the scan never increases. -/
theorem sjfScanAux_snd_le : ∀ (l : List SJFSlot) (t : Int) (i0 : Nat) (acc : Option Nat × Int),
    (sjfScanAux t l i0 acc).2 ≤ acc.2 := by
  intro l
  induction l with
  | nil => intro t i0 acc; exact le_refl _
  | cons slot rest ih =>
    intro t i0 acc
    rw [sjfScanAux]
    by_cases hc : slot.completed = false ∧ slot.proc.ArrivalTime ≤ t ∧ slot.remaining < acc.2
    · rw [if_pos hc]
      exact le_trans (ih t (i0 + 1) _) (le_of_lt hc.2.2)
    · rw [if_neg hc]
      exact ih t (i0 + 1) acc

/-- The scan's final minimum is at most the remaining burst of every
eligible slot. -/
theorem sjfScanAux_le_elig : ∀ (l : List SJFSlot) (t : Int) (i0 : Nat) (acc : Option Nat × Int)
    (j : Nat) (slot : SJFSlot), l.get? j = some slot → Elig t slot →
    (sjfScanAux t l i0 acc).2 ≤ slot.remaining := by
  intro l
  induction l with
  | nil => intro t i0 acc j slot hj; cases hj
  | cons slot0 rest ih =>
    intro t i0 acc j slot hj he
    rw [sjfScanAux]
    cases j with
    | zero =>
      obtain rfl : slot0 = slot := by simpa using hj
      by_cases hc : slot0.completed = false ∧ slot0.proc.ArrivalTime ≤ t ∧ slot0.remaining < acc.2
      · rw [if_pos hc]
        exact sjfScanAux_snd_le rest t (i0 + 1) _
      · rw [if_neg hc]
        have hge : acc.2 ≤ slot0.remaining := by
          rcases he with ⟨h1, h2⟩
          by_contra hlt
          exact hc ⟨h1, h2, by omega⟩
        exact le_trans (sjfScanAux_snd_le rest t (i0 + 1) acc) hge
    | succ k =>
      exact ih t (i0 + 1) _ k slot hj he

/-- Once the accumulator holds an index, the scan result holds one. -/
theorem sjfScanAux_some_stays : ∀ (l : List SJFSlot) (t : Int) (i0 : Nat)
    (acc : Option Nat × Int) (k : Nat), acc.1 = some k →
    ∃ k2, (sjfScanAux t l i0 acc).1 = some k2 := by
  intro l
  induction l with
  | nil => intro t i0 acc k h; exact ⟨k, h⟩
  | cons slot0 rest ih =>
    intro t i0 acc k h
    rw [sjfScanAux]
    by_cases hc : slot0.completed = false ∧ slot0.proc.ArrivalTime ≤ t ∧ slot0.remaining < acc.2
    · rw [if_pos hc]
      exact ih t (i0 + 1) _ i0 rfl
    · rw [if_neg hc]
      exact ih t (i0 + 1) acc k h

/-- If the scan returns no index, the accumulator came through unchanged
and every eligible slot's remaining burst is at least the initial
minimum. -/
theorem sjfScanAux_none : ∀ (l : List SJFSlot) (t : Int) (i0 : Nat) (acc : Option Nat × Int),
    (sjfScanAux t l i0 acc).1 = none →
    sjfScanAux t l i0 acc = acc ∧
      ∀ slot ∈ l, Elig t slot → acc.2 ≤ slot.remaining := by
  intro l
  induction l with
  | nil =>
    intro t i0 acc _
    exact ⟨rfl, by intro slot h; cases h⟩
  | cons slot0 rest ih =>
    intro t i0 acc hres
    rw [sjfScanAux] at hres ⊢
    by_cases hc : slot0.completed = false ∧ slot0.proc.ArrivalTime ≤ t ∧ slot0.remaining < acc.2
    · exfalso
      rw [if_pos hc] at hres
      rcases sjfScanAux_some_stays rest t (i0 + 1) (some i0, slot0.remaining) i0 rfl with ⟨k2, hk2⟩
      rw [hres] at hk2
      cases hk2
    · rw [if_neg hc] at hres ⊢
      rcases ih t (i0 + 1) acc hres with ⟨heq, hall⟩
      refine ⟨heq, ?_⟩
      intro slot hmem he
      rcases List.mem_cons.1 hmem with rfl | hmem2
      · rcases he with ⟨h1, h2⟩
        by_contra hlt
        exact hc ⟨h1, h2, by omega⟩
      · exact hall slot hmem2 he

/-- Full characterization of a successful scan: either the accumulator
already held the answer and nothing in the list beat the running
minimum, or the winner is a slot of the list — eligible, of minimal
remaining burst among all eligible slots, strictly smaller than every
eligible slot before it and than the initial minimum. -/
theorem sjfScanAux_some : ∀ (l : List SJFSlot) (t : Int) (i0 : Nat) (acc : Option Nat × Int)
    (k : Nat), (sjfScanAux t l i0 acc).1 = some k →
    (acc.1 = some k ∧ sjfScanAux t l i0 acc = acc ∧
      ∀ slot ∈ l, Elig t slot → acc.2 ≤ slot.remaining) ∨
    (∃ pos slot, l.get? pos = some slot ∧ k = i0 + pos ∧ Elig t slot ∧
      (sjfScanAux t l i0 acc).2 = slot.remaining ∧ slot.remaining < acc.2 ∧
      ∀ q slotq, l.get? q = some slotq → Elig t slotq →
        slot.remaining ≤ slotq.remaining ∧ (q < pos → slot.remaining < slotq.remaining)) := by
  intro l
  induction l with
  | nil =>
    intro t i0 acc k h
    exact Or.inl ⟨h, rfl, by intro slot hm; cases hm⟩
  | cons slot0 rest ih =>
    intro t i0 acc k hres
    rw [sjfScanAux] at hres
    by_cases hc : slot0.completed = false ∧ slot0.proc.ArrivalTime ≤ t ∧ slot0.remaining < acc.2
    · rw [if_pos hc] at hres
      rcases ih t (i0 + 1) (some i0, slot0.remaining) k hres with ⟨hk, heq, hall⟩ | hupd
      · -- the head slot itself is the winner
        cases hk
        refine Or.inr ⟨0, slot0, rfl, by omega, ⟨hc.1, hc.2.1⟩, ?_, hc.2.2, ?_⟩
        · rw [sjfScanAux, if_pos hc, heq]
        · intro q slotq hq he
          cases q with
          | zero => cases hq; exact ⟨le_refl _, by omega⟩
          | succ q2 =>
            exact ⟨hall slotq (List.get?_mem hq) he, by omega⟩
      · rcases hupd with ⟨pos, slot, hget, hk, he, hmin, hlt, hbound⟩
        refine Or.inr ⟨pos + 1, slot, hget, by omega, he, ?_, by omega, ?_⟩
        · rw [sjfScanAux, if_pos hc]; exact hmin
        · intro q slotq hq heq2
          cases q with
          | zero =>
            cases hq
            exact ⟨by omega, fun _ => by omega⟩
          | succ q2 =>
            rcases hbound q2 slotq hq heq2 with ⟨h1, h2⟩
            exact ⟨h1, fun hq2 => h2 (by omega)⟩
    · rw [if_neg hc] at hres
      rcases ih t (i0 + 1) acc k hres with ⟨hk, heq, hall⟩ | hupd
      · refine Or.inl ⟨hk, ?_, ?_⟩
        · rw [sjfScanAux, if_neg hc, heq]
        · intro slot hmem he
          rcases List.mem_cons.1 hmem with rfl | hmem2
          · rcases he with ⟨h1, h2⟩
            by_contra hlt
            exact hc ⟨h1, h2, by omega⟩
          · exact hall slot hmem2 he
      · rcases hupd with ⟨pos, slot, hget, hk, he, hmin, hlt, hbound⟩
        refine Or.inr ⟨pos + 1, slot, hget, by omega, he, ?_, hlt, ?_⟩
        · rw [sjfScanAux, if_neg hc]; exact hmin
        · intro q slotq hq heq2
          cases q with
          | zero =>
            obtain rfl : slot0 = slotq := by simpa using hq
            have hge : acc.2 ≤ slot0.remaining := by
              rcases heq2 with ⟨h1, h2⟩
              by_contra hlt2
              exact hc ⟨h1, h2, by omega⟩
            exact ⟨by omega, fun _ => by omega⟩
          | succ q2 =>
            rcases hbound q2 slotq hq heq2 with ⟨h1, h2⟩
            exact ⟨h1, fun hq2 => h2 (by omega)⟩

/-- Top-level scan, successful case: the selected index carries an
eligible slot whose remaining burst is below the `MaxInt64` sentinel,
minimal among eligible slots, and strictly minimal among eligible slots
of lower index. -/
theorem sjfScan_some_spec (slots : List SJFSlot) (t : Int) (i : Nat)
    (h : (sjfScan slots t).1 = some i) :
    ∃ slot, slots.get? i = some slot ∧ Elig t slot ∧
      slot.remaining < maxInt64 ∧
      ∀ q slotq, slots.get? q = some slotq → Elig t slotq →
        slot.remaining ≤ slotq.remaining ∧ (q < i → slot.remaining < slotq.remaining) := by
  rcases sjfScanAux_some slots t 0 (none, maxInt64) i h with ⟨hk, _, _⟩ | hupd
  · cases hk
  · rcases hupd with ⟨pos, slot, hget, hk, he, _, hlt, hbound⟩
    have : i = pos := by omega
    subst this
    exact ⟨slot, hget, he, hlt, hbound⟩

/-- Top-level scan, empty case: every eligible slot (if any) has
remaining burst at least `MaxInt64`. -/
theorem sjfScan_none_spec (slots : List SJFSlot) (t : Int)
    (h : (sjfScan slots t).1 = none) :
    ∀ slot ∈ slots, Elig t slot → maxInt64 ≤ slot.remaining :=
  (sjfScanAux_none slots t 0 (none, maxInt64) h).2

/-- Helper: `getD` agrees with a successful `get?`. -/
theorem getD_of_get? {α : Type} [Inhabited α] {l : List α} {n : Nat} {a : α}
    (h : l.get? n = some a) : l.getD n default = a := by
  rw [List.getD_eq_getElem?_getD, ← List.get?_eq_getElem?, h]
  rfl

/-! ### Claim C3: in-place sorting of the caller's slice -/

/-- Claim C3 (amended): `FCFSSchedule` and `SJFSchedule` leave the
caller's sequence untouched, but `SJFPrioritySchedule` and `RRSchedule`
sort the caller's slice in place — after those calls the caller's
sequence is a permutation of the original, ordered by (arrival, burst)
respectively by arrival, not the original sequence itself. -/
theorem C3_mutation_amended (ps : List Process) (fuel : Nat) :
    (FCFSSchedule ps).procsAfter = ps ∧
    (∀ res, SJFSchedule fuel ps = some res → res.procsAfter = ps) ∧
    (List.Sorted prLE (SJFPrioritySchedule ps).procsAfter ∧
      (SJFPrioritySchedule ps).procsAfter.Perm ps) ∧
    (∀ res, RRSchedule fuel ps = some res →
      List.Sorted arrLE res.procsAfter ∧ res.procsAfter.Perm ps) := by
  refine ⟨rfl, ?_, ⟨?_, ?_⟩, ?_⟩
  · intro res hres
    rcases Option.map_eq_some'.1 hres with ⟨sfin, _, rfl⟩
    rfl
  · exact List.sorted_insertionSort prLE ps
  · exact List.perm_insertionSort prLE ps
  · intro res hres
    rcases Option.map_eq_some'.1 hres with ⟨sfin, _, rfl⟩
    exact ⟨List.sorted_insertionSort arrLE ps, List.perm_insertionSort arrLE ps⟩

/-- Witness for C3 at the spec's two-process example (where the sorted
order differs from the input order) with enough fuel for both runs. -/
theorem C3_mutation_amended_witness :
    (SJFSchedule 20 [⟨1, 2, 6, 0⟩, ⟨2, 0, 8, 0⟩]).isSome ∧
    (RRSchedule 20 [⟨1, 2, 6, 0⟩, ⟨2, 0, 8, 0⟩]).isSome ∧
    ((FCFSSchedule [⟨1, 2, 6, 0⟩, ⟨2, 0, 8, 0⟩]).procsAfter = [⟨1, 2, 6, 0⟩, ⟨2, 0, 8, 0⟩] ∧
     (∀ res, SJFSchedule 20 [⟨1, 2, 6, 0⟩, ⟨2, 0, 8, 0⟩] = some res →
        res.procsAfter = [⟨1, 2, 6, 0⟩, ⟨2, 0, 8, 0⟩]) ∧
     (List.Sorted prLE (SJFPrioritySchedule [⟨1, 2, 6, 0⟩, ⟨2, 0, 8, 0⟩]).procsAfter ∧
       (SJFPrioritySchedule [⟨1, 2, 6, 0⟩, ⟨2, 0, 8, 0⟩]).procsAfter.Perm
         [⟨1, 2, 6, 0⟩, ⟨2, 0, 8, 0⟩]) ∧
     (∀ res, RRSchedule 20 [⟨1, 2, 6, 0⟩, ⟨2, 0, 8, 0⟩] = some res →
        List.Sorted arrLE res.procsAfter ∧
          res.procsAfter.Perm [⟨1, 2, 6, 0⟩, ⟨2, 0, 8, 0⟩])) :=
  ⟨by decide, by decide, C3_mutation_amended [⟨1, 2, 6, 0⟩, ⟨2, 0, 8, 0⟩] 20⟩

/-! ### Claim C8: the selection policy of `SJFSchedule` -/

/-- Claim C8 (amended): provided every remaining burst is strictly below
the `MaxInt64` sentinel (the original claim fails at remaining burst
exactly 2^63 − 1, see the counterexample), each simulated time unit of
`SJFSchedule` runs the eligible process with the smallest remaining
burst, ties broken towards the lowest original index, and when no
process is eligible it advances the clock by one unit, selecting nobody
and recording nothing. -/
theorem C8_selection_amended (s : SJFState)
    (hrem : ∀ slot ∈ s.slots, slot.remaining < maxInt64) : SJFStepSpec s := by
  constructor
  · intro i hscan
    rcases sjfScan_some_spec s.slots s.currentTime i hscan with ⟨slot, hget, helig, _, hbound⟩
    have hgetD : s.slots.getD i default = slot := getD_of_get? hget
    rcases List.get?_eq_some.1 hget with ⟨hlen, _⟩
    refine ⟨slot, hget, helig, ?_, ?_, ?_, ?_⟩
    · intro j slotj hj hej
      exact hbound j slotj hj hej
    · by_cases hr : (s.slots.getD i default).remaining - 1 = 0
      · rw [sjfStep_some_done s i hscan hr]
      · rw [sjfStep_some_cont s i hscan hr]
    · by_cases hr : (s.slots.getD i default).remaining - 1 = 0
      · rw [sjfStep_some_done s i hscan hr]
        refine ⟨_, List.get?_set_eq_of_lt _ hlen, ?_, ?_⟩
        · rw [hgetD]
        · rw [hgetD]
      · rw [sjfStep_some_cont s i hscan hr]
        refine ⟨_, List.get?_set_eq_of_lt _ hlen, ?_, ?_⟩
        · rw [hgetD]
        · rw [hgetD]
    · intro j hj
      by_cases hr : (s.slots.getD i default).remaining - 1 = 0
      · rw [sjfStep_some_done s i hscan hr]
        exact List.get?_set_ne _ _ (Ne.symm hj)
      · rw [sjfStep_some_cont s i hscan hr]
        exact List.get?_set_ne _ _ (Ne.symm hj)
  · intro hscan
    refine ⟨?_, sjfStep_none s hscan⟩
    intro slot hmem helig
    have h1 := sjfScan_none_spec s.slots s.currentTime hscan slot hmem helig
    have h2 := hrem slot hmem
    omega

/-- Witness for C8 at the initial state of a concrete two-process
input. -/
theorem C8_selection_amended_witness :
    (∀ slot ∈ (sjfInit [⟨1, 0, 5, 0⟩, ⟨2, 1, 3, 0⟩]).slots, slot.remaining < maxInt64) ∧
    SJFStepSpec (sjfInit [⟨1, 0, 5, 0⟩, ⟨2, 1, 3, 0⟩]) :=
  ⟨by decide, C8_selection_amended _ (by decide)⟩

/-! ### Claim C6: non-negativity of waits -/

/-- Helper for C6: every row the priority-variant loop appends has a
non-negative wait (it is zero for a not-yet-arrived process and clock
minus arrival, with clock at least the arrival, otherwise). -/
theorem spRun_wait_nonneg : ∀ (ps : List Process) (s : SPState),
    (∀ r ∈ s.schedule, 0 ≤ r.wait) → ∀ r ∈ (spRun s ps).schedule, 0 ≤ r.wait := by
  intro ps
  induction ps with
  | nil => intro s hs; exact hs
  | cons p rest ih =>
    intro s hs
    refine ih (spStep s p) ?_
    intro r hr
    rcases List.mem_append.1 hr with h | h
    · exact hs r h
    · rcases List.mem_singleton.1 h with rfl
      dsimp [spStep]
      split <;> omega

/-- Helper for C6: one `SJFSchedule` step preserves the conjunction of
the executed-time invariant (a slot that has run for `e > 0` units has
clock at least arrival + `e`) and non-negativity of all recorded
waits. -/
theorem sjfStep_wait_inv (s : SJFState)
    (hinv : (∀ slot ∈ s.slots, slot.remaining ≤ slot.proc.BurstDuration ∧
        (slot.remaining < slot.proc.BurstDuration →
          slot.proc.ArrivalTime + (slot.proc.BurstDuration - slot.remaining) ≤ s.currentTime)) ∧
      (∀ o ∈ s.schedule, ∀ r, o = some r → 0 ≤ r.wait)) :
    (∀ slot ∈ (sjfStep s).slots, slot.remaining ≤ slot.proc.BurstDuration ∧
        (slot.remaining < slot.proc.BurstDuration →
          slot.proc.ArrivalTime + (slot.proc.BurstDuration - slot.remaining)
            ≤ (sjfStep s).currentTime)) ∧
      (∀ o ∈ (sjfStep s).schedule, ∀ r, o = some r → 0 ≤ r.wait) := by
  rcases hinv with ⟨hslots, hrows⟩
  rcases hscan : (sjfScan s.slots s.currentTime).1 with _ | i
  · rw [sjfStep_none s hscan]
    refine ⟨?_, hrows⟩
    intro slot hmem
    have := hslots slot hmem
    exact ⟨this.1, fun h => by have := this.2 h; dsimp at *; omega⟩
  · rcases sjfScan_some_spec s.slots s.currentTime i hscan with ⟨slot, hget, helig, _, _⟩
    have hgetD : s.slots.getD i default = slot := getD_of_get? hget
    have hslot := hslots slot (List.get?_mem hget)
    have harr : slot.proc.ArrivalTime ≤ s.currentTime := helig.2
    have hkey : slot.proc.ArrivalTime +
        (slot.proc.BurstDuration - (slot.remaining - 1)) ≤ s.currentTime + 1 := by
      by_cases hc : slot.remaining < slot.proc.BurstDuration
      · have := hslot.2 hc
        omega
      · have : slot.remaining = slot.proc.BurstDuration := by
          have := hslot.1
          omega
        omega
    by_cases hr : (s.slots.getD i default).remaining - 1 = 0
    · rw [sjfStep_some_done s i hscan hr]
      rw [hgetD] at hr
      constructor
      · intro slot2 hmem2
        rcases List.mem_or_eq_of_mem_set hmem2 with hmem3 | rfl
        · have := hslots slot2 hmem3
          exact ⟨this.1, fun h => by have := this.2 h; dsimp at *; omega⟩
        · rw [hgetD]
          dsimp
          have := hslot.1
          exact ⟨by omega, fun _ => hkey⟩
      · intro o ho r hor
        rcases List.mem_or_eq_of_mem_set ho with ho2 | rfl
        · exact hrows o ho2 r hor
        · cases hor
          rw [hgetD]
          dsimp
          omega
    · rw [sjfStep_some_cont s i hscan hr]
      refine ⟨?_, hrows⟩
      intro slot2 hmem2
      rcases List.mem_or_eq_of_mem_set hmem2 with hmem3 | rfl
      · have := hslots slot2 hmem3
        exact ⟨this.1, fun h => by have := this.2 h; dsimp at *; omega⟩
      · rw [hgetD]
        dsimp
        have := hslot.1
        exact ⟨by omega, fun _ => hkey⟩

/-- Claim C6 (amended): under the data-model preconditions, every wait
reported by `SJFSchedule` and by `SJFPrioritySchedule` is non-negative;
`FCFSSchedule` and `RRSchedule` are excluded, since both report negative
waits on valid inputs (see the counterexample). -/
theorem C6_wait_nonneg_amended (ps : List Process) (hv : ValidInput ps) :
    (∀ fuel res, SJFSchedule fuel ps = some res → ∀ r ∈ res.rows, 0 ≤ r.wait) ∧
    (∀ r ∈ (SJFPrioritySchedule ps).rows, 0 ≤ r.wait) := by
  constructor
  · intro fuel res hres r hr
    rcases Option.map_eq_some'.1 hres with ⟨sfin, hrun, rfl⟩
    have hinv := sjfRun_inv (P := fun s =>
        (∀ slot ∈ s.slots, slot.remaining ≤ slot.proc.BurstDuration ∧
          (slot.remaining < slot.proc.BurstDuration →
            slot.proc.ArrivalTime + (slot.proc.BurstDuration - slot.remaining) ≤ s.currentTime)) ∧
        (∀ o ∈ s.schedule, ∀ r', o = some r' → 0 ≤ r'.wait))
      (fun s hs => sjfStep_wait_inv s hs) fuel (sjfInit ps) sfin ?_ hrun
    · rcases List.mem_filterMap.1 hr with ⟨o, ho, hor⟩
      exact hinv.2 o ho r hor
    · constructor
      · intro slot hmem
        rcases List.mem_map.1 hmem with ⟨p, _, rfl⟩
        exact ⟨le_refl _, fun h => absurd h (lt_irrefl _)⟩
      · intro o ho r' hor'
        rw [List.eq_of_mem_replicate ho] at hor'
        cases hor'
  · exact spRun_wait_nonneg _ _ (by intro r hr; cases hr)

/-- Witness for C6 at a concrete valid input. -/
theorem C6_wait_nonneg_amended_witness :
    ValidInput [⟨1, 0, 5, 0⟩, ⟨2, 1, 3, 0⟩] ∧
    (SJFSchedule 20 [⟨1, 0, 5, 0⟩, ⟨2, 1, 3, 0⟩]).isSome ∧
    ((∀ fuel res, SJFSchedule fuel [⟨1, 0, 5, 0⟩, ⟨2, 1, 3, 0⟩] = some res →
        ∀ r ∈ res.rows, 0 ≤ r.wait) ∧
     (∀ r ∈ (SJFPrioritySchedule [⟨1, 0, 5, 0⟩, ⟨2, 1, 3, 0⟩]).rows, 0 ≤ r.wait)) :=
  ⟨by decide, by decide, C6_wait_nonneg_amended _ (by decide)⟩

/-! ### Claim C9: the priority field is never consulted -/

/-- The priority-variant comparator only reads arrival and burst. -/
theorem prLE_congr {a b a2 b2 : Process} (ha : samePB a a2) (hb : samePB b b2) :
    prLE a b ↔ prLE a2 b2 := by
  rcases ha with ⟨_, h1, h2⟩
  rcases hb with ⟨_, h3, h4⟩
  unfold prLE
  rw [h1, h2, h3, h4]

/-- Ordered insertion acts identically on priority-variants. -/
theorem orderedInsert_samePB : ∀ {l₁ l₂ : List Process} {a b : Process}, samePB a b →
    List.Forall₂ samePB l₁ l₂ →
    List.Forall₂ samePB (List.orderedInsert prLE a l₁) (List.orderedInsert prLE b l₂) := by
  intro l₁ l₂ a b hab hl
  induction hl with
  | nil => exact List.Forall₂.cons hab List.Forall₂.nil
  | @cons x y l₁' l₂' hxy hl' ih =>
    rw [List.orderedInsert, List.orderedInsert]
    by_cases hc : prLE a x
    · rw [if_pos hc, if_pos ((prLE_congr hab hxy).1 hc)]
      exact List.Forall₂.cons hab (List.Forall₂.cons hxy hl')
    · rw [if_neg hc, if_neg (fun h => hc ((prLE_congr hab hxy).2 h))]
      exact List.Forall₂.cons hxy ih

/-- Insertion sort acts identically on priority-variants. -/
theorem insertionSort_samePB : ∀ {l₁ l₂ : List Process}, List.Forall₂ samePB l₁ l₂ →
    List.Forall₂ samePB (List.insertionSort prLE l₁) (List.insertionSort prLE l₂) := by
  intro l₁ l₂ h
  induction h with
  | nil => exact List.Forall₂.nil
  | @cons a b l₁' l₂' hab hl ih =>
    rw [List.insertionSort, List.insertionSort]
    exact orderedInsert_samePB hab ih

/-- One iteration of the priority-variant loop acts identically on
priority-variants: every component of the state except the priority
column of the rows evolves the same way. -/
theorem spStep_parallel (a b : Process) (hab : samePB a b) (s₁ s₂ : SPState)
    (ht : s₁.currentTime = s₂.currentTime) (hw : s₁.totalWait = s₂.totalWait)
    (htt : s₁.totalTurnaround = s₂.totalTurnaround)
    (hlc : s₁.lastCompletion = s₂.lastCompletion)
    (hrows : List.Forall₂ rowAgree s₁.schedule s₂.schedule)
    (hgantt : s₁.gantt = s₂.gantt) :
    (spStep s₁ a).currentTime = (spStep s₂ b).currentTime ∧
    (spStep s₁ a).totalWait = (spStep s₂ b).totalWait ∧
    (spStep s₁ a).totalTurnaround = (spStep s₂ b).totalTurnaround ∧
    (spStep s₁ a).lastCompletion = (spStep s₂ b).lastCompletion ∧
    List.Forall₂ rowAgree (spStep s₁ a).schedule (spStep s₂ b).schedule ∧
    (spStep s₁ a).gantt = (spStep s₂ b).gantt := by
  rcases hab with ⟨hid, harr, hburst⟩
  refine ⟨?_, ?_, ?_, ?_, ?_, ?_⟩
  · dsimp [spStep]; rw [ht, harr, hburst]
  · dsimp [spStep]; rw [hw, ht, harr]
  · dsimp [spStep]; rw [htt, ht, harr, hburst]
  · dsimp [spStep]; rw [ht, harr, hburst]
  · refine List.rel_append hrows (List.Forall₂.cons ?_ List.Forall₂.nil)
    refine ⟨?_, ?_, ?_, ?_, ?_, ?_⟩ <;> dsimp <;> simp only [ht, harr, hid, hburst]
  · dsimp [spStep]; rw [hgantt, hid, ht, harr, hburst]

/-- The whole priority-variant loop acts identically on
priority-variants. -/
theorem spRun_parallel : ∀ {l₁ l₂ : List Process}, List.Forall₂ samePB l₁ l₂ →
    ∀ (s₁ s₂ : SPState), s₁.currentTime = s₂.currentTime → s₁.totalWait = s₂.totalWait →
    s₁.totalTurnaround = s₂.totalTurnaround → s₁.lastCompletion = s₂.lastCompletion →
    List.Forall₂ rowAgree s₁.schedule s₂.schedule → s₁.gantt = s₂.gantt →
    (spRun s₁ l₁).currentTime = (spRun s₂ l₂).currentTime ∧
    (spRun s₁ l₁).totalWait = (spRun s₂ l₂).totalWait ∧
    (spRun s₁ l₁).totalTurnaround = (spRun s₂ l₂).totalTurnaround ∧
    (spRun s₁ l₁).lastCompletion = (spRun s₂ l₂).lastCompletion ∧
    List.Forall₂ rowAgree (spRun s₁ l₁).schedule (spRun s₂ l₂).schedule ∧
    (spRun s₁ l₁).gantt = (spRun s₂ l₂).gantt := by
  intro l₁ l₂ h
  induction h with
  | nil =>
    intro s₁ s₂ ht hw htt hlc hrows hgantt
    exact ⟨ht, hw, htt, hlc, hrows, hgantt⟩
  | @cons a b l₁' l₂' hab hl ih =>
    intro s₁ s₂ ht hw htt hlc hrows hgantt
    rcases spStep_parallel a b hab s₁ s₂ ht hw htt hlc hrows hgantt with
      ⟨h1, h2, h3, h4, h5, h6⟩
    exact ih (spStep s₁ a) (spStep s₂ b) h1 h2 h3 h4 h5 h6

/-- The rows emitted by the priority-variant loop match, in order, the
processes it visits. -/
theorem spRun_matches : ∀ (ps : List Process) (s : SPState) (qs : List Process),
    List.Forall₂ rowMatches s.schedule qs →
    List.Forall₂ rowMatches (spRun s ps).schedule (qs ++ ps) := by
  intro ps
  induction ps with
  | nil => intro s qs h; simpa using h
  | cons p rest ih =>
    intro s qs h
    rw [spRun, List.append_cons]
    refine ih (spStep s p) (qs ++ [p]) ?_
    refine List.rel_append h (List.Forall₂.cons ?_ List.Forall₂.nil)
    exact ⟨rfl, rfl, rfl, rfl⟩

/-- Claim C9 (confirmed): `SJFPrioritySchedule` processes jobs in the
order given by sorting the input by (arrival ascending, burst
ascending), and everything it computes — ordering decisions, waits,
turnarounds, completions, Gantt slices, aggregate metrics — is
independent of every process's priority field. -/
theorem C9_priority_ignored (ps qs : List Process)
    (h : List.Forall₂ samePB ps qs) : spPrioIndependence ps qs := by
  have hsorted := insertionSort_samePB h
  have hpar := spRun_parallel hsorted ⟨0, 0, 0, 0, [], []⟩ ⟨0, 0, 0, 0, [], []⟩
    rfl rfl rfl rfl List.Forall₂.nil rfl
  rcases hpar with ⟨h1, h2, h3, h4, h5, h6⟩
  have hlen : ps.length = qs.length := h.length_eq
  refine ⟨⟨List.sorted_insertionSort prLE ps, List.perm_insertionSort prLE ps, ?_⟩,
    h5, h6, ?_, ?_, ?_⟩
  · simpa using spRun_matches (List.insertionSort prLE ps) ⟨0, 0, 0, 0, [], []⟩ []
      List.Forall₂.nil
  · show safeDiv _ _ = safeDiv _ _
    rw [h2, hlen]
  · show safeDiv _ _ = safeDiv _ _
    rw [h3, hlen]
  · show safeDiv _ _ = safeDiv _ _
    rw [h4, hlen]

/-- Witness for C9 on two concrete inputs differing only in their
priority fields. -/
theorem C9_priority_ignored_witness :
    List.Forall₂ samePB [⟨1, 0, 5, 7⟩, ⟨2, 1, 3, 2⟩] [⟨1, 0, 5, 1⟩, ⟨2, 1, 3, 9⟩] ∧
    spPrioIndependence [⟨1, 0, 5, 7⟩, ⟨2, 1, 3, 2⟩] [⟨1, 0, 5, 1⟩, ⟨2, 1, 3, 9⟩] :=
  ⟨List.Forall₂.cons ⟨rfl, rfl, rfl⟩ (List.Forall₂.cons ⟨rfl, rfl, rfl⟩ List.Forall₂.nil),
   C9_priority_ignored _ _
     (List.Forall₂.cons ⟨rfl, rfl, rfl⟩ (List.Forall₂.cons ⟨rfl, rfl, rfl⟩ List.Forall₂.nil))⟩

/-! ### Claim C10: termination of the `SJFSchedule` loop -/

/-- Replacing one list element shifts `countP` by the difference of the
two indicator values. -/
theorem countP_set_eq {α : Type} (p : α → Bool) :
    ∀ (l : List α) (i : Nat) (a b : α), l.get? i = some a →
    (l.set i b).countP p + (if p a then 1 else 0) = l.countP p + (if p b then 1 else 0) := by
  intro l
  induction l with
  | nil => intro i a b h; cases h
  | cons x rest ih =>
    intro i a b h
    cases i with
    | zero =>
      obtain rfl : x = a := by simpa using h
      simp only [List.set_cons_zero, List.countP_cons]
      omega
    | succ k =>
      have h2 := ih k a b (by simpa using h)
      simp only [List.set_cons_succ, List.countP_cons]
      omega

/-- Replacing one list element shifts a mapped sum by the difference of
the two images. -/
theorem summap_set {α : Type} (f : α → Nat) :
    ∀ (l : List α) (i : Nat) (a b : α), l.get? i = some a →
    ((l.set i b).map f).sum + f a = (l.map f).sum + f b := by
  intro l
  induction l with
  | nil => intro i a b h; cases h
  | cons x rest ih =>
    intro i a b h
    cases i with
    | zero =>
      obtain rfl : x = a := by simpa using h
      simp only [List.set_cons_zero, List.map_cons, List.sum_cons]
      omega
    | succ k =>
      have h2 := ih k a b (by simpa using h)
      simp only [List.set_cons_succ, List.map_cons, List.sum_cons]
      omega

/-- Every member of an `Int` list is at most its right fold with `max`
over a zero base. -/
theorem le_foldr_max : ∀ (l : List Int) (x : Int), x ∈ l → x ≤ l.foldr max 0 := by
  intro l
  induction l with
  | nil => intro x h; cases h
  | cons y rest ih =>
    intro x h
    rcases List.mem_cons.1 h with rfl | h2
    · exact le_max_left _ _
    · exact le_trans (ih x h2) (le_max_right _ _)

/-- One `SJFSchedule` step preserves the completion-count invariant. -/
theorem sjfStep_count (s : SJFState) (hc : sjfCount s) : sjfCount (sjfStep s) := by
  rcases hscan : (sjfScan s.slots s.currentTime).1 with _ | i
  · rw [sjfStep_none s hscan]; exact hc
  · rcases sjfScan_some_spec _ _ _ hscan with ⟨slot, hget, helig, _, _⟩
    have hgetD := getD_of_get? hget
    unfold sjfCount at hc ⊢
    by_cases hr : (s.slots.getD i default).remaining - 1 = 0
    · rw [sjfStep_some_done s i hscan hr]
      dsimp
      rw [hgetD]
      have h2 := countP_set_eq (fun sl => sl.completed) s.slots i slot
        ⟨slot.proc, slot.remaining - 1, true⟩ hget
      rw [show (fun sl => sl.completed) slot = slot.completed from rfl, helig.1] at h2
      simp at h2
      omega
    · rw [sjfStep_some_cont s i hscan hr]
      dsimp
      rw [hgetD]
      have h2 := countP_set_eq (fun sl => sl.completed) s.slots i slot
        ⟨slot.proc, slot.remaining - 1, slot.completed⟩ hget
      dsimp at h2
      omega

/-- If some slot is not complete, the loop condition still holds. -/
theorem sjf_notdone (s : SJFState) (hc : sjfCount s)
    (hex : ∃ slot ∈ s.slots, slot.completed = false) :
    s.procDone < s.slots.length := by
  rcases hex with ⟨slot, hmem, hcomp⟩
  have hle : List.countP (fun sl => sl.completed) s.slots ≤ s.slots.length :=
    List.countP_le_length _
  have hne : List.countP (fun sl => sl.completed) s.slots ≠ s.slots.length := by
    intro heq
    have hall := (List.countP_eq_length).1 heq slot hmem
    rw [hcomp] at hall
    cases hall
  rw [sjfCount] at hc
  omega

/-- Conversely, while the loop condition holds some slot is not
complete. -/
theorem sjf_exists_noncomplete (s : SJFState) (hc : sjfCount s)
    (hrun : s.procDone < s.slots.length) :
    ∃ slot ∈ s.slots, slot.completed = false := by
  by_contra hall
  push_neg at hall
  have : ∀ slot ∈ s.slots, slot.completed = true := by
    intro slot hmem
    have := hall slot hmem
    cases hcompl : slot.completed
    · exact absurd hcompl this
    · rfl
  have heq : List.countP (fun sl => sl.completed) s.slots = s.slots.length :=
    (List.countP_eq_length).2 this
  rw [sjfCount] at hc
  omega

/-- One `SJFSchedule` step preserves the burst and arrival bounds and
strictly decreases the termination measure, as long as the loop
condition holds. -/
theorem sjfStep_term (A : Int) (s : SJFState) (hb : sjfBound s) (hc : sjfCount s)
    (ha : sjfArrBound A s) (hrun : s.procDone < s.slots.length) :
    sjfBound (sjfStep s) ∧ sjfArrBound A (sjfStep s) ∧
      sjfMeasure A (sjfStep s) < sjfMeasure A s := by
  rcases hscan : (sjfScan s.slots s.currentTime).1 with _ | i
  · rcases sjf_exists_noncomplete s hc hrun with ⟨slot0, hmem0, hcomp0⟩
    have hbs := hb slot0 hmem0
    have harr : s.currentTime < slot0.proc.ArrivalTime := by
      by_contra hge
      have helig0 : Elig s.currentTime slot0 := ⟨hcomp0, by omega⟩
      have h1 := sjfScan_none_spec _ _ hscan slot0 hmem0 helig0
      have hb4 := hbs.2.2
      omega
    have hA := ha slot0 hmem0
    rw [sjfStep_none s hscan]
    refine ⟨hb, ha, ?_⟩
    unfold sjfMeasure
    dsimp
    omega
  · rcases sjfScan_some_spec _ _ _ hscan with ⟨slot, hget, helig, _, _⟩
    have hgetD := getD_of_get? hget
    have hbs := hb slot (List.get?_mem hget)
    have hrem1 : 1 ≤ slot.remaining := hbs.1 helig.1
    by_cases hr : (s.slots.getD i default).remaining - 1 = 0
    · rw [sjfStep_some_done s i hscan hr]
      refine ⟨?_, ?_, ?_⟩
      · intro slot2 hmem2
        rcases List.mem_or_eq_of_mem_set hmem2 with hold | rfl
        · exact hb slot2 hold
        · rw [hgetD]
          dsimp
          have hb4 := hbs.2.2
          refine ⟨?_, ?_, ?_, ?_⟩
          · intro h
            cases h
          · omega
          · omega
          · exact hbs.2.2.2
      · intro slot2 hmem2
        rcases List.mem_or_eq_of_mem_set hmem2 with hold | rfl
        · exact ha slot2 hold
        · rw [hgetD]
          exact ha slot (List.get?_mem hget)
      · unfold sjfMeasure
        dsimp
        rw [hgetD]
        have hsum := summap_set (fun sl => sl.remaining.toNat) s.slots i slot
          ⟨slot.proc, slot.remaining - 1, true⟩ hget
        dsimp at hsum
        omega
    · rw [sjfStep_some_cont s i hscan hr]
      refine ⟨?_, ?_, ?_⟩
      · intro slot2 hmem2
        rcases List.mem_or_eq_of_mem_set hmem2 with hold | rfl
        · exact hb slot2 hold
        · rw [hgetD] at hr ⊢
          dsimp
          have hb4 := hbs.2.2
          refine ⟨?_, ?_, ?_, ?_⟩
          · intro h2
            omega
          · omega
          · omega
          · exact hbs.2.2.2
      · intro slot2 hmem2
        rcases List.mem_or_eq_of_mem_set hmem2 with hold | rfl
        · exact ha slot2 hold
        · rw [hgetD]
          exact ha slot (List.get?_mem hget)
      · unfold sjfMeasure
        dsimp
        rw [hgetD]
        have hsum := summap_set (fun sl => sl.remaining.toNat) s.slots i slot
          ⟨slot.proc, slot.remaining - 1, slot.completed⟩ hget
        dsimp at hsum
        omega

/-- Any fuel at least the measure completes the `SJFSchedule` loop. -/
theorem sjfRun_total (A : Int) : ∀ (k : Nat) (s : SJFState),
    sjfBound s → sjfCount s → sjfArrBound A s → sjfMeasure A s ≤ k →
    (sjfRun k s).isSome = true := by
  intro k
  induction k with
  | zero =>
    intro s hb hc ha hm
    by_cases hrun : s.procDone < s.slots.length
    · exfalso
      rcases sjf_exists_noncomplete s hc hrun with ⟨slot0, hmem0, hcomp0⟩
      have hbs := hb slot0 hmem0
      have hone : 1 ≤ slot0.remaining := hbs.1 hcomp0
      have hsum : slot0.remaining.toNat ≤ (s.slots.map fun sl => sl.remaining.toNat).sum :=
        List.single_le_sum (by simp) _ (List.mem_map_of_mem _ hmem0)
      unfold sjfMeasure at hm
      omega
    · rw [sjfRun, if_neg hrun]
      rfl
  | succ n ih =>
    intro s hb hc ha hm
    by_cases hrun : s.procDone < s.slots.length
    · rw [sjfRun, if_pos hrun]
      rcases sjfStep_term A s hb hc ha hrun with ⟨hb2, ha2, hmlt⟩
      exact ih (sjfStep s) hb2 (sjfStep_count s hc) ha2 (by omega)
    · rw [sjfRun, if_neg hrun]
      rfl

/-- The completion-count invariant holds initially. -/
theorem sjfInit_count (ps : List Process) : sjfCount (sjfInit ps) := by
  unfold sjfCount sjfInit
  dsimp
  symm
  rw [List.countP_eq_zero]
  intro a hmem
  rcases List.mem_map.1 hmem with ⟨p, _, rfl⟩
  simp

/-- A never-completing slot survives one step of the loop. -/
theorem sjfStep_neg (s : SJFState)
    (hneg : ∃ i slot, s.slots.get? i = some slot ∧
      slot.completed = false ∧ slot.remaining ≤ 0) :
    ∃ i slot, (sjfStep s).slots.get? i = some slot ∧
      slot.completed = false ∧ slot.remaining ≤ 0 := by
  rcases hneg with ⟨i, slot, hget, hcomp, hrem⟩
  rcases hscan : (sjfScan s.slots s.currentTime).1 with _ | j
  · rw [sjfStep_none s hscan]
    exact ⟨i, slot, hget, hcomp, hrem⟩
  · rcases sjfScan_some_spec _ _ _ hscan with ⟨slotj, hgetj, _, _, _⟩
    have hgetDj := getD_of_get? hgetj
    rcases List.get?_eq_some.1 hgetj with ⟨hlenj, _⟩
    by_cases hij : j = i
    · subst hij
      obtain rfl : slotj = slot := by
        rw [hget] at hgetj
        exact (Option.some.inj hgetj).symm
      have hr : ¬ ((s.slots.getD j default).remaining - 1 = 0) := by
        rw [hgetDj]; omega
      rw [sjfStep_some_cont s j hscan hr]
      refine ⟨j, _, List.get?_set_eq_of_lt _ hlenj, ?_, ?_⟩
      · rw [hgetDj]
        exact hcomp
      · rw [hgetDj]
        dsimp
        omega
    · by_cases hr : ((s.slots.getD j default).remaining - 1 = 0)
      · rw [sjfStep_some_done s j hscan hr]
        refine ⟨i, slot, ?_, hcomp, hrem⟩
        rw [List.get?_set_ne _ _ hij]
        exact hget
      · rw [sjfStep_some_cont s j hscan hr]
        refine ⟨i, slot, ?_, hcomp, hrem⟩
        rw [List.get?_set_ne _ _ hij]
        exact hget

/-- With a non-positive-burst slot present, no fuel finishes the loop. -/
theorem sjfRun_neg : ∀ (fuel : Nat) (s : SJFState), sjfCount s →
    (∃ i slot, s.slots.get? i = some slot ∧
      slot.completed = false ∧ slot.remaining ≤ 0) →
    sjfRun fuel s = none := by
  intro fuel
  induction fuel with
  | zero =>
    intro s hc hneg
    rcases hneg with ⟨i, slot, hget, hcomp, _⟩
    have hrun := sjf_notdone s hc ⟨slot, List.get?_mem hget, hcomp⟩
    rw [sjfRun, if_pos hrun]
  | succ n ih =>
    intro s hc hneg
    rcases hneg with ⟨i, slot, hget, hcomp, hrem⟩
    have hrun := sjf_notdone s hc ⟨slot, List.get?_mem hget, hcomp⟩
    rw [sjfRun, if_pos hrun]
    exact ih (sjfStep s) (sjfStep_count s hc) (sjfStep_neg s ⟨i, slot, hget, hcomp, hrem⟩)

/-- Claim C10 (amended): the `SJFSchedule` loop terminates for every
input whose bursts all lie in `[1, 2^63 − 1)` — bursts of exactly
2^63 − 1 defeat the scan's `MaxInt64` sentinel and the loop idles
forever, see the counterexample — and the lower bound is necessary: any
process with a non-positive burst is decremented past zero without ever
equalling it, so the loop never terminates. -/
theorem C10_termination_amended :
    (∀ ps, (∀ p ∈ ps, 1 ≤ p.BurstDuration ∧ p.BurstDuration < maxInt64) →
      sjfTerminates ps) ∧
    (∀ ps, (∃ p ∈ ps, p.BurstDuration ≤ 0) → ¬ sjfTerminates ps) := by
  constructor
  · intro ps hv
    refine ⟨sjfMeasure ((ps.map Process.ArrivalTime).foldr max 0) (sjfInit ps), ?_⟩
    apply sjfRun_total ((ps.map Process.ArrivalTime).foldr max 0)
    · intro slot hmem
      rcases List.mem_map.1 hmem with ⟨p, hp, rfl⟩
      have := hv p hp
      exact ⟨fun _ => this.1, by dsimp; omega, le_refl _, this.2⟩
    · exact sjfInit_count ps
    · intro slot hmem
      rcases List.mem_map.1 hmem with ⟨p, hp, rfl⟩
      exact le_foldr_max _ _ (List.mem_map_of_mem _ hp)
    · exact le_refl _
  · intro ps hex hterm
    rcases hterm with ⟨fuel, hsome⟩
    rcases hex with ⟨p, hp, hple⟩
    rcases List.mem_iff_get?.1 hp with ⟨n, hn⟩
    have hneg : ∃ i slot, (sjfInit ps).slots.get? i = some slot ∧
        slot.completed = false ∧ slot.remaining ≤ 0 := by
      refine ⟨n, ⟨p, p.BurstDuration, false⟩, ?_, rfl, hple⟩
      show (ps.map fun q => (⟨q, q.BurstDuration, false⟩ : SJFSlot)).get? n = _
      rw [List.get?_map, hn]
      rfl
    rw [sjfRun_neg fuel _ (sjfInit_count ps) hneg] at hsome
    cases hsome

/-- Witness for C10: a one-process input with burst 2 terminates, and a
one-process input with burst 0 does not. -/
theorem C10_termination_amended_witness :
    sjfTerminates [⟨1, 0, 2, 0⟩] ∧ ¬ sjfTerminates [⟨1, 0, 0, 0⟩] :=
  ⟨C10_termination_amended.1 _ (by decide), C10_termination_amended.2 _ (by decide)⟩

end Sched
